import Mathlib

/-!
Verification of the requirements-scanner pipeline
(`requirements_scanner.py` and `ai_analyzer.py`).

Strings are embedded as `List Char` (`Str`); each manifest file is a list
of raw requirement lines; the scanner's Python dicts are embedded as
insertion-ordered association lists (`setA` updates in place and appends
new keys, matching CPython dict semantics).
-/

namespace ReqScan

abbrev Str := List Char

/-- Whitespace characters stripped by Python's `str.strip()` / matched by
regex `\s` on the ASCII range. -/
def isSpaceChar (c : Char) : Bool :=
  c = ' ' || c = '\t' || c = '\n' || c = '\r' || c = '\x0b' || c = '\x0c'

/-- Characters `= < > !` that may open a version specifier
(regex class `[=<>!]` at line 89 of `requirements_scanner.py`). -/
def isOpChar (c : Char) : Bool :=
  c = '=' || c = '<' || c = '>' || c = '!'

/-- Characters allowed inside a package name
(regex class `[a-zA-Z0-9._-]` at line 78). -/
def isNameTail (c : Char) : Bool :=
  c.isAlphanum || c = '.' || c = '_' || c = '-'

/-- `line.split('#')[0]` : everything before the first `#`. -/
def stripComment (l : Str) : Str := l.takeWhile (fun c => c ≠ '#')

/-- Python `str.strip()` : remove leading and trailing whitespace. -/
def strip (l : Str) : Str :=
  ((l.dropWhile isSpaceChar).reverse.dropWhile isSpaceChar).reverse

/-- Does `l` start with the pattern `p` (Python `str.startswith`)? -/
def startsWithL : Str → Str → Bool
  | [], _ => true
  | _ :: _, [] => false
  | p :: ps, c :: cs => p = c && startsWithL ps cs

/-- `line.startswith(('http://', 'https://', 'git+', '-e '))` (line 73). -/
def urlLike (l : Str) : Bool :=
  startsWithL "http://".data l || startsWithL "https://".data l ||
  startsWithL "git+".data l || startsWithL "-e ".data l

/-- The leading-name regex `^([a-zA-Z0-9]([a-zA-Z0-9._-]*[a-zA-Z0-9])?)`
(line 78): first char alphanumeric, then greedily the longest run of name
characters whose final character is alphanumeric; trailing separators are
left in the remainder.  Returns `(matched name, text after the match)`. -/
def matchName (l : Str) : Option (Str × Str) :=
  match l with
  | [] => none
  | c :: rest =>
    if c.isAlphanum then
      let run := rest.takeWhile isNameTail
      let after := rest.dropWhile isNameTail
      let keep := (run.reverse.dropWhile (fun c => !c.isAlphanum)).reverse
      some (c :: keep, run.drop keep.length ++ after)
    else none

/-- One character of `package_name.lower().replace('_', '-')` (line 86). -/
def normChar (c : Char) : Char :=
  let d := c.toLower
  if d = '_' then '-' else d

/-- `package_name.lower().replace('_', '-')` (line 86). -/
def normName (s : Str) : Str := s.map normChar

/-- `re.search(r'([=<>!]+.*?)(?:\s|$)', remainder)` then `.group(1).strip()`
(lines 89-90): the match begins at the first `[=<>!]` character and the lazy
`.*?` stops at the first following whitespace (or end of string). -/
def findVersionSpec (rest : Str) : Str :=
  let after := rest.dropWhile (fun c => !isOpChar c)
  match after with
  | [] => []
  | _ => strip (after.takeWhile (fun c => !isSpaceChar c))

/-- `PackageNormalizer.parse_requirement` (lines 57-92). -/
def parse_requirement (line : Str) : Option (Str × Str) :=
  let l := strip (stripComment line)
  if l = [] then none
  else if urlLike l then none
  else
    match matchName l with
    | none => none
    | some (name, rest) => some (normName name, findVersionSpec rest)

/-! Association lists with CPython-dict semantics: updating an existing key
keeps its position, a new key is appended at the end. -/

/-- Dict lookup: first binding of `k`, if any. -/
def getA (m : List (Str × α)) (k : Str) : Option α :=
  match m with
  | [] => none
  | (a, b) :: t => if a = k then some b else getA t k

/-- Dict update `m[k] = v`. -/
def setA (m : List (Str × α)) (k : Str) (v : α) : List (Str × α) :=
  match m with
  | [] => [(k, v)]
  | (a, b) :: t => if a = k then (a, v) :: t else (a, b) :: setA t k v

/-- Lookup with default, `m.get(k, d)`. -/
def getAD (m : List (Str × Nat)) (k : Str) : Nat := (getA m k).getD 0

/-- The dict's key sequence. -/
def keysOf (m : List (Str × α)) : List Str := m.map Prod.fst

/-- The name parsed from a line, if the line declares a package
(`package_name` in the scanner loops). -/
def nameOf (line : Str) : Option Str := (parse_requirement line).map Prod.fst

/-- `full_spec = f"{package_name}{version_spec}"` with the bare name when the
version spec is empty (lines 163-167). -/
def fullSpecOf (line : Str) : Option Str :=
  (parse_requirement line).map (fun p => if p.2 = [] then p.1 else p.1 ++ p.2)

/-- One line of the per-file tally loop shared by
`extract_packages_with_versions` (lines 158-171, `key = fullSpecOf`) and the
counting loop of `generate_frequency_report` (lines 199-204,
`key = nameOf`): if the line yields a key not yet seen in this file,
increment that key's count and mark it seen. -/
def tallyLine (key : Str → Option Str) (p : List (Str × Nat) × List Str)
    (line : Str) : List (Str × Nat) × List Str :=
  match key line with
  | none => p
  | some k =>
    if k ∈ p.2 then p
    else (setA p.1 k (getAD p.1 k + 1), k :: p.2)

/-- Process one file with a fresh `seen_in_file` set. -/
def tallyFile (key : Str → Option Str) (m : List (Str × Nat))
    (file : List Str) : List (Str × Nat) :=
  (file.foldl (tallyLine key) (m, [])).1

/-- Per-file-deduplicated occurrence counts over all files. -/
def tally (key : Str → Option Str) (files : List (List Str)) :
    List (Str × Nat) :=
  files.foldl (tallyFile key) []

/-- `RequirementsScanner.extract_packages_with_versions` (lines 146-175):
`full_spec → number of files containing it`. -/
def package_versions (files : List (List Str)) : List (Str × Nat) :=
  tally fullSpecOf files

/-- The counting loop of `RequirementsScanner.generate_frequency_report`
(lines 194-206): `normalized name → number of files containing it`. -/
def package_counts (files : List (List Str)) : List (Str × Nat) :=
  tally nameOf files

/-- One line of `RequirementsScanner.extract_packages` (lines 130-140):
ensure the name has an entry, then append the version spec if it is
non-empty and not yet recorded for that name. -/
def addVersion (m : List (Str × List Str)) (line : Str) :
    List (Str × List Str) :=
  match parse_requirement line with
  | none => m
  | some (n, v) =>
    let m1 := match getA m n with
      | none => setA m n []
      | some _ => m
    match getA m1 n with
    | none => m1
    | some vs => if v ≠ [] ∧ v ∉ vs then setA m1 n (vs ++ [v]) else m1

/-- `RequirementsScanner.extract_packages` (lines 121-144):
`normalized name → version specs in first-encountered order`. -/
def extract_packages (files : List (List Str)) : List (Str × List Str) :=
  files.foldl (fun m file => file.foldl addVersion m) []

/-! Sorting.  Python `sorted` is a stable sort by a total key; on the
distinct keys of a dict its output is the unique sorted arrangement, so it
is embedded as insertion sort by the corresponding total preorder. -/

/-- Python string comparison `a <= b`: lexicographic on code points. -/
def lexLe : Str → Str → Bool
  | [], _ => true
  | _ :: _, [] => false
  | a :: as, b :: bs => if a < b then true else if a = b then lexLe as bs else false

/-- Ascending string order, used by `sorted(packages.keys())`
(lines 179 and 226). -/
abbrev relAlpha (a b : Str) : Prop := lexLe a b = true

/-- The key `lambda x: (-x[1], x[0])` of lines 209 and 241: descending
count, ties broken by ascending key. -/
def freqLe (a b : Str × Nat) : Bool :=
  b.2 < a.2 || (a.2 = b.2 && lexLe a.1 b.1)

/-- Order relation of the two frequency reports. -/
abbrev relFreq (a b : Str × Nat) : Prop := freqLe a b = true

/-- `sorted(packages.keys())`. -/
def sortedAlpha (l : List Str) : List Str := List.insertionSort relAlpha l

/-- `sorted(d.items(), key=lambda x: (-x[1], x[0]))`. -/
def sortedByFreq (m : List (Str × Nat)) : List (Str × Nat) :=
  List.insertionSort relFreq m

/-! Report generation.  Each report function is embedded as the list of
chunks passed to `f.write`, in order; the file's final content is the
concatenation of the chunks. -/

/-- Decimal rendering of a count (Python `str(n)` inside an f-string). -/
def natStr (n : Nat) : Str := (Nat.repr n).data

/-- Python `f"{s:<w}"`: pad on the right with spaces to width `w`. -/
def padRight (s : Str) (w : Nat) : Str := s ++ List.replicate (w - s.length) ' '

/-- `', '.join(packages[package]) if packages[package] else 'any'`
(line 219). -/
def versionsColumn (vs : List Str) : Str :=
  if vs = [] then "any".data else List.intercalate ", ".data vs

/-- `RequirementsScanner.generate_unique_packages_report` (lines 177-188)
as its sequence of `f.write` calls. -/
def unique_packages_chunks (packages : List (Str × List Str)) : List Str :=
  let sorted_packages := sortedAlpha (keysOf packages)
  "# Unique Packages (Alphabetically Sorted)\n".data
    :: ("# Total unique packages: ".data ++ natStr sorted_packages.length
        ++ "\n\n".data)
    :: sorted_packages.map (fun p => p ++ "\n".data)

/-- `RequirementsScanner.generate_frequency_report` (lines 190-222) as its
sequence of `f.write` calls; the counting loop is `package_counts`. -/
def frequency_report_chunks (packages : List (Str × List Str))
    (files : List (List Str)) : List Str :=
  let counts := package_counts files
  let rows := sortedByFreq counts
  "# Packages by Frequency\n".data
    :: ("# Total requirements.txt files scanned: ".data
        ++ natStr files.length ++ "\n".data)
    :: ("# Total unique packages: ".data ++ natStr counts.length
        ++ "\n\n".data)
    :: (padRight "Package".data 40 ++ " ".data ++ padRight "Count".data 10
        ++ " ".data ++ "Versions Found\n".data)
    :: (List.replicate 40 '-' ++ " ".data ++ List.replicate 10 '-'
        ++ " ".data ++ List.replicate 40 '-' ++ "\n".data)
    :: rows.map (fun r =>
        padRight r.1 40 ++ " ".data ++ padRight (natStr r.2) 10 ++ " ".data
        ++ versionsColumn ((getA packages r.1).getD []) ++ "\n".data)

/-- `RequirementsScanner.generate_unique_packages_with_versions_report`
(lines 224-235) as its sequence of `f.write` calls. -/
def unique_with_versions_chunks (package_versions : List (Str × Nat)) :
    List Str :=
  let sorted_packages := sortedAlpha (keysOf package_versions)
  "# Unique Packages with Versions (Alphabetically Sorted)\n".data
    :: ("# Total unique package+version combinations: ".data
        ++ natStr sorted_packages.length ++ "\n\n".data)
    :: sorted_packages.map (fun p => p ++ "\n".data)

/-- `RequirementsScanner.generate_frequency_with_versions_report`
(lines 237-253) as its sequence of `f.write` calls. -/
def frequency_with_versions_chunks (package_versions : List (Str × Nat))
    (files : List (List Str)) : List Str :=
  let rows := sortedByFreq package_versions
  "# Packages with Versions by Frequency\n".data
    :: ("# Total requirements.txt files scanned: ".data
        ++ natStr files.length ++ "\n".data)
    :: ("# Total unique package+version combinations: ".data
        ++ natStr package_versions.length ++ "\n\n".data)
    :: (padRight "Package Specification".data 60 ++ " ".data
        ++ padRight "Count".data 10 ++ "\n".data)
    :: (List.replicate 60 '-' ++ " ".data ++ List.replicate 10 '-'
        ++ "\n".data)
    :: rows.map (fun r =>
        padRight r.1 60 ++ " ".data ++ padRight (natStr r.2) 10 ++ "\n".data)

/-- Final content of an output file: its write chunks concatenated. -/
def chunksText (chunks : List Str) : Str := chunks.flatten

/-- The four deterministic report texts of one run. -/
structure Reports where
  uniqueNames : Str
  namesByFreq : Str
  uniqueSpecs : Str
  specsByFreq : Str
deriving DecidableEq

/-- The report-generation phase of `main` (lines 353-378): extract the two
aggregates and render the four reports. -/
def allReports (files : List (List Str)) : Reports :=
  let packages := extract_packages files
  let pv := package_versions files
  { uniqueNames := chunksText (unique_packages_chunks packages)
    namesByFreq := chunksText (frequency_report_chunks packages files)
    uniqueSpecs := chunksText (unique_with_versions_chunks pv)
    specsByFreq := chunksText (frequency_with_versions_chunks pv files) }

/-! The driver and the summarization step. -/

/-- Failure taxonomy of the summarization step: the exceptions `main`
catches around the AI block (lines 432-438) and those raised by
`AIAnalyzer` (`ai_analyzer.py`). -/
inductive AIFailure where
  | importFailure
  | unsupportedProvider
  | missingCredential
  | readFailure
  | remoteFailure
deriving DecidableEq

/-- Python truthiness of an optional string (`if not self.api_key`). -/
def truthy : Option Str → Bool
  | none => false
  | some s => !s.isEmpty

/-- `AIAnalyzer.__init__` (`ai_analyzer.py` lines 15-40): validate the
provider, then resolve the credential from the argument or the
environment; raise (here: return an error) when absent. -/
def analyzerInit (provider : Str) (apiKey : Option Str)
    (env : Str → Option Str) : Except AIFailure Str :=
  let p := provider.map Char.toLower
  if ¬(p = "anthropic".data ∨ p = "openai".data) then
    Except.error AIFailure.unsupportedProvider
  else
    let k := if truthy apiKey then apiKey
      else env (if p = "anthropic".data then "ANTHROPIC_API_KEY".data
        else "OPENAI_API_KEY".data)
    if truthy k then Except.ok (k.getD []) else
      Except.error AIFailure.missingCredential

/-- Outcome of one run of `main` (lines 343-440): exit code, the reports
written (if the scan reached report generation), the caught AI failure (if
any) and the AI text (if produced). -/
structure MainResult where
  exitCode : Nat
  reports : Option Reports
  aiWarning : Option AIFailure
  aiText : Option Str
deriving DecidableEq

/-- `main` from the point the manifest list is known (lines 345-440):
an empty list returns 0 immediately (lines 347-349) with no reports;
otherwise the four reports are generated and the optional summarization
step runs inside try/except, its failures caught as warnings, and `main`
returns 0 (lines 417-440).  `ai = none` models a run where the AI step is
skipped or not requested. -/
def mainRun (files : List (List Str)) (ai : Option (Except AIFailure Str)) :
    MainResult :=
  if files.isEmpty then ⟨0, none, none, none⟩
  else
    let reps := allReports files
    match ai with
    | none => ⟨0, some reps, none, none⟩
    | some (Except.ok t) => ⟨0, some reps, none, some t⟩
    | some (Except.error e) => ⟨0, some reps, some e, none⟩

/-! Verification-side definitions (not part of the source): predicates used
to state the claims. -/

/-- Does `file` contain a line whose parsed key is `k`? -/
def fileHas (key : Str → Option Str) (k : Str) (file : List Str) : Bool :=
  decide (k ∈ file.filterMap key)

/-- The version-spec extraction as worded by the spec: find the first
index holding one of `= < > !`; from there take everything up to (but not
including) the next whitespace or the end of the string, and trim it;
if no such index exists the version spec is empty. -/
def specSide (rest : Str) : Str :=
  match rest.findIdx? isOpChar with
  | none => []
  | some i => strip ((rest.drop i).takeWhile (fun c => !isSpaceChar c))

/-- Two characters that differ only by letter case, or only by the choice
of underscore versus hyphen, or are equal. -/
def relatedCharB (c d : Char) : Bool :=
  (c.isAlpha && d.isAlpha && c.toLower = d.toLower) ||
  ((c = '_' || c = '-') && (d = '_' || d = '-')) ||
  c = d

/-- Two spellings that differ only in letter case and/or in the choice of
underscore versus hyphen at separator positions. -/
def relatedStr : Str → Str → Bool
  | [], [] => true
  | a :: as, b :: bs => relatedCharB a b && relatedStr as bs
  | _, _ => false

/-! Character-level facts about normalization. -/


theorem char_eq_iff_toNat {a b : Char} : a = b ↔ a.toNat = b.toNat := by
  constructor
  · intro h; rw [h]
  · intro h
    apply Char.eq_of_val_eq
    apply UInt32.toNat.inj
    exact h

theorem char_lt_iff_toNat {a b : Char} : a < b ↔ a.toNat < b.toNat := by
  rw [Char.lt_def, UInt32.lt_def, BitVec.lt_def]
  rfl

theorem char_ofNat_toNat (n : Nat) (h : n < 55296) :
    (Char.ofNat n).toNat = n := by
  rw [Char.ofNat, dif_pos (Or.inl h)]
  rfl

theorem uint32_le_iff_toNat {a b : UInt32} : a ≤ b ↔ a.toNat ≤ b.toNat := by
  rw [UInt32.le_def, BitVec.le_def]
  rfl

theorem char_val_toNat (c : Char) : c.val.toNat = c.toNat := rfl

theorem uint32_lit_toNat_65 : (65 : UInt32).toNat = 65 := by decide

theorem isUpper_iff {c : Char} :
    c.isUpper = true ↔ 65 ≤ c.toNat ∧ c.toNat ≤ 90 := by
  simp only [Char.isUpper, Bool.and_eq_true, decide_eq_true_eq, ge_iff_le,
    uint32_le_iff_toNat, char_val_toNat]
  norm_num

theorem isLower_iff {c : Char} :
    c.isLower = true ↔ 97 ≤ c.toNat ∧ c.toNat ≤ 122 := by
  simp only [Char.isLower, Bool.and_eq_true, decide_eq_true_eq, ge_iff_le,
    uint32_le_iff_toNat, char_val_toNat]
  norm_num

theorem isDigit_iff {c : Char} :
    c.isDigit = true ↔ 48 ≤ c.toNat ∧ c.toNat ≤ 57 := by
  simp only [Char.isDigit, Bool.and_eq_true, decide_eq_true_eq, ge_iff_le,
    uint32_le_iff_toNat, char_val_toNat]
  norm_num

theorem toLower_of_upper {c : Char} (h : c.isUpper = true) :
    (c.toLower).toNat = c.toNat + 32 := by
  have h' := isUpper_iff.mp h
  simp only [Char.toLower]
  rw [if_pos ⟨h'.1, h'.2⟩]
  exact char_ofNat_toNat _ (by omega)

theorem toLower_of_not_upper {c : Char} (h : c.isUpper = false) :
    c.toLower = c := by
  have h' : ¬(65 ≤ c.toNat ∧ c.toNat ≤ 90) := by
    intro hc
    rw [isUpper_iff.mpr hc] at h
    exact absurd h (by decide)
  simp only [Char.toLower]
  rw [if_neg h']


theorem isUpper_eq_false_of {c : Char} (h : ¬(65 ≤ c.toNat ∧ c.toNat ≤ 90)) :
    c.isUpper = false := by
  cases hb : c.isUpper
  · rfl
  · exact absurd (isUpper_iff.mp hb) h

theorem toLower_idem (c : Char) : c.toLower.toLower = c.toLower := by
  cases hu : c.isUpper
  · rw [toLower_of_not_upper hu, toLower_of_not_upper hu]
  · have h1 : (c.toLower).toNat = c.toNat + 32 := toLower_of_upper hu
    have h2 := isUpper_iff.mp hu
    apply toLower_of_not_upper
    apply isUpper_eq_false_of
    omega

theorem normChar_eq_cases (c : Char) :
    normChar c = '-' ∨ normChar c = c.toLower := by
  simp only [normChar]
  by_cases h : c.toLower = '_'
  · simp [h]
  · simp [h]

theorem normChar_ne_underscore (c : Char) : normChar c ≠ '_' := by
  simp only [normChar]
  by_cases h : c.toLower = '_'
  · simp [h]
  · simp [h]

theorem normChar_not_upper (c : Char) : (normChar c).isUpper = false := by
  rcases normChar_eq_cases c with h | h
  · rw [h]; decide
  · rw [h]
    cases hu : c.isUpper
    · rw [toLower_of_not_upper hu]; exact hu
    · have h1 : (c.toLower).toNat = c.toNat + 32 := toLower_of_upper hu
      have h2 := isUpper_iff.mp hu
      apply isUpper_eq_false_of
      omega

theorem isAlphanum_iff {c : Char} :
    c.isAlphanum = true ↔
      (65 ≤ c.toNat ∧ c.toNat ≤ 90) ∨ (97 ≤ c.toNat ∧ c.toNat ≤ 122) ∨
      (48 ≤ c.toNat ∧ c.toNat ≤ 57) := by
  simp only [Char.isAlphanum, Char.isAlpha, Bool.or_eq_true, isUpper_iff,
    isLower_iff, isDigit_iff]
  tauto

theorem normChar_alnum {c : Char} (h : c.isAlphanum = true) :
    (normChar c).isAlphanum = true := by
  have h' := isAlphanum_iff.mp h
  cases hu : c.isUpper
  · have hl : c.toLower = c := toLower_of_not_upper hu
    have hne : c.toLower ≠ '_' := by
      rw [hl]
      intro he
      rw [char_eq_iff_toNat] at he
      have : ('_').toNat = 95 := by decide
      omega
    simp only [normChar, if_neg hne]
    rw [hl]
    exact h
  · have h1 : (c.toLower).toNat = c.toNat + 32 := toLower_of_upper hu
    have h2 := isUpper_iff.mp hu
    have hne : c.toLower ≠ '_' := by
      intro he
      rw [char_eq_iff_toNat] at he
      have : ('_').toNat = 95 := by decide
      omega
    simp only [normChar, if_neg hne]
    rw [isAlphanum_iff]
    omega

theorem normChar_idem (c : Char) : normChar (normChar c) = normChar c := by
  by_cases h : c.toLower = '_'
  · have hc : normChar c = '-' := by simp only [normChar]; simp [h]
    rw [hc]
    decide
  · have hc : normChar c = c.toLower := by simp only [normChar]; simp [h]
    rw [hc]
    simp only [normChar]
    simp [toLower_idem c, h]

theorem normName_idem (s : Str) : normName (normName s) = normName s := by
  rw [normName, normName, List.map_map]
  apply List.map_congr_left
  intro c _
  exact normChar_idem c


/-! Order properties of the sort relations. -/

theorem lexLe_total (a b : Str) : lexLe a b = true ∨ lexLe b a = true := by
  induction a generalizing b with
  | nil => left; rfl
  | cons x xs ih =>
    cases b with
    | nil => right; rfl
    | cons y ys =>
      rcases Nat.lt_trichotomy x.toNat y.toNat with h | h | h
      · left
        simp [lexLe, char_lt_iff_toNat.mpr h]
      · have hxy : x = y := char_eq_iff_toNat.mpr h
        subst hxy
        rcases ih ys with h' | h'
        · left; simp [lexLe, h']
        · right; simp [lexLe, h']
      · right
        simp [lexLe, char_lt_iff_toNat.mpr h]

theorem lexLe_trans {a b c : Str} (h1 : lexLe a b = true)
    (h2 : lexLe b c = true) : lexLe a c = true := by
  induction a generalizing b c with
  | nil => rfl
  | cons x xs ih =>
    cases b with
    | nil => simp [lexLe] at h1
    | cons y ys =>
      cases c with
      | nil => simp [lexLe] at h2
      | cons z zs =>
        simp only [lexLe] at h1 h2 ⊢
        by_cases hxy : x < y
        · by_cases hyz : y < z
          · have hxz : x < z := char_lt_iff_toNat.mpr (by
              have ha := char_lt_iff_toNat.mp hxy
              have hb := char_lt_iff_toNat.mp hyz
              omega)
            simp [hxz]
          · simp only [if_neg hyz] at h2
            by_cases hyz' : y = z
            · subst hyz'
              simp [hxy]
            · simp [hyz'] at h2
        · simp only [if_neg hxy] at h1
          by_cases hxy' : x = y
          · subst hxy'
            simp only [if_pos rfl] at h1
            by_cases hyz : x < z
            · simp [hyz]
            · simp only [if_neg hyz] at h2 ⊢
              by_cases hyz' : x = z
              · simp only [if_pos hyz'] at h2 ⊢
                exact ih h1 h2
              · simp [hyz'] at h2
          · simp [hxy'] at h1

theorem lexLe_antisymm {a b : Str} (h1 : lexLe a b = true)
    (h2 : lexLe b a = true) : a = b := by
  induction a generalizing b with
  | nil =>
    cases b with
    | nil => rfl
    | cons y ys => simp [lexLe] at h2
  | cons x xs ih =>
    cases b with
    | nil => simp [lexLe] at h1
    | cons y ys =>
      simp only [lexLe] at h1 h2
      by_cases hxy : x < y
      · have hyx : ¬ y < x := by
          have := char_lt_iff_toNat.mp hxy
          intro hc
          have := char_lt_iff_toNat.mp hc
          omega
        have hyx' : y ≠ x := by
          intro hc
          subst hc
          exact absurd hxy (by
            intro hc'
            have := char_lt_iff_toNat.mp hc'
            omega)
        simp [hyx, hyx'] at h2
      · simp only [if_neg hxy] at h1
        by_cases hxy' : x = y
        · subst hxy'
          simp only [if_pos rfl] at h1
          have hyx : ¬ x < x := by
            intro hc
            have := char_lt_iff_toNat.mp hc
            omega
          simp only [if_neg hyx, if_pos rfl] at h2
          rw [ih h1 h2]
        · simp [hxy'] at h1

instance : IsTotal Str relAlpha := ⟨lexLe_total⟩

instance : IsTrans Str relAlpha := ⟨fun _ _ _ => lexLe_trans⟩

instance : IsAntisymm Str relAlpha := ⟨fun _ _ => lexLe_antisymm⟩

theorem freqLe_total (a b : Str × Nat) :
    freqLe a b = true ∨ freqLe b a = true := by
  rw [freqLe, freqLe]
  rcases Nat.lt_trichotomy a.2 b.2 with h | h | h
  · right; simp [h]
  · rcases lexLe_total a.1 b.1 with h' | h'
    · left; simp [h, h']
    · right; simp [h, h']
  · left; simp [h]

theorem freqLe_trans {a b c : Str × Nat} (h1 : freqLe a b = true)
    (h2 : freqLe b c = true) : freqLe a c = true := by
  rw [freqLe] at h1 h2 ⊢
  simp only [Bool.or_eq_true, Bool.and_eq_true, decide_eq_true_eq] at h1 h2 ⊢
  rcases h1 with h1 | ⟨h1e, h1l⟩
  · rcases h2 with h2 | ⟨h2e, h2l⟩
    · left; omega
    · left; omega
  · rcases h2 with h2 | ⟨h2e, h2l⟩
    · left; omega
    · right
      exact ⟨by omega, lexLe_trans h1l h2l⟩

theorem freqLe_antisymm {a b : Str × Nat} (h1 : freqLe a b = true)
    (h2 : freqLe b a = true) : a = b := by
  rw [freqLe] at h1 h2
  simp only [Bool.or_eq_true, Bool.and_eq_true, decide_eq_true_eq] at h1 h2
  rcases h1 with h1 | ⟨h1e, h1l⟩
  · rcases h2 with h2 | ⟨h2e, h2l⟩
    · omega
    · omega
  · rcases h2 with h2 | ⟨h2e, h2l⟩
    · omega
    · have : a.1 = b.1 := lexLe_antisymm h1l h2l
      exact Prod.ext this (by omega)

instance : IsTotal (Str × Nat) relFreq := ⟨freqLe_total⟩

instance : IsTrans (Str × Nat) relFreq := ⟨fun _ _ _ => freqLe_trans⟩

instance : IsAntisymm (Str × Nat) relFreq := ⟨fun _ _ => freqLe_antisymm⟩

/-! Generic list lemmas and association-list lemmas. -/

theorem dropWhile_eq_self_of {α : Type} {p : α → Bool} {l : List α}
    (h : ∀ c ∈ l, p c = false) : l.dropWhile p = l := by
  cases l with
  | nil => rfl
  | cons a t => simp [List.dropWhile_cons, h a (by simp)]

theorem strip_eq_self {l : Str} (h : ∀ c ∈ l, isSpaceChar c = false) :
    strip l = l := by
  rw [strip, dropWhile_eq_self_of h,
    dropWhile_eq_self_of (fun c hc => h c (by simpa using hc)),
    List.reverse_reverse]

theorem getA_setA_self {α : Type} (m : List (Str × α)) (k : Str) (v : α) :
    getA (setA m k v) k = some v := by
  induction m with
  | nil => rw [setA, getA, if_pos rfl]
  | cons p t ih =>
    obtain ⟨a, b⟩ := p
    rw [setA]
    by_cases h : a = k
    · rw [if_pos h, getA, if_pos h]
    · rw [if_neg h, getA, if_neg h, ih]

theorem getA_setA_ne {α : Type} (m : List (Str × α)) {k k' : Str}
    (h : k' ≠ k) (v : α) : getA (setA m k v) k' = getA m k' := by
  have hkk : ¬ k = k' := fun hc => h hc.symm
  induction m with
  | nil =>
    rw [setA]
    simp only [getA]
    rw [if_neg hkk]
  | cons p t ih =>
    obtain ⟨a, b⟩ := p
    rw [setA]
    by_cases ha : a = k
    · have hak : ¬ a = k' := fun hc => hkk (ha.symm.trans hc)
      rw [if_pos ha, getA, getA, if_neg hak, if_neg hak]
    · rw [if_neg ha, getA, getA]
      by_cases ha' : a = k'
      · rw [if_pos ha', if_pos ha']
      · rw [if_neg ha', if_neg ha', ih]

theorem keysOf_setA {α : Type} (m : List (Str × α)) (k : Str) (v : α) :
    keysOf (setA m k v) =
      if k ∈ keysOf m then keysOf m else keysOf m ++ [k] := by
  induction m with
  | nil =>
    rw [setA, if_neg (show k ∉ keysOf ([] : List (Str × α)) by
      rw [keysOf, List.map_nil]
      exact List.not_mem_nil k)]
    simp only [keysOf, List.map_cons, List.map_nil, List.nil_append]
  | cons p t ih =>
    obtain ⟨a, b⟩ := p
    by_cases h : a = k
    · subst h
      have hc : a ∈ keysOf ((a, b) :: t) := by
        rw [keysOf, List.map_cons]
        exact List.mem_cons_self a (t.map Prod.fst)
      rw [setA, if_pos rfl, if_pos hc]
      simp only [keysOf, List.map_cons]
    · have hka : ¬ k = a := fun hc => h hc.symm
      rw [setA, if_neg h]
      have hx : keysOf ((a, b) :: setA t k v) = a :: keysOf (setA t k v) := by
        simp only [keysOf, List.map_cons]
      rw [hx, ih]
      by_cases hm : k ∈ keysOf t
      · have hmem : k ∈ keysOf ((a, b) :: t) := by
          simp only [keysOf, List.map_cons, List.mem_cons]
          exact Or.inr hm
        rw [if_pos hm, if_pos hmem]
        simp only [keysOf, List.map_cons]
      · have hmem : k ∉ keysOf ((a, b) :: t) := by
          simp only [keysOf, List.map_cons, List.mem_cons]
          rintro (hc | hc)
          · exact hka hc
          · exact hm hc
        rw [if_neg hm, if_neg hmem]
        simp only [keysOf, List.map_cons, List.cons_append]

theorem getA_eq_none_iff {α : Type} (m : List (Str × α)) (k : Str) :
    getA m k = none ↔ k ∉ keysOf m := by
  induction m with
  | nil =>
    simp only [getA, keysOf, List.map_nil]
    exact ⟨fun _ => List.not_mem_nil k, fun _ => trivial⟩
  | cons p t ih =>
    obtain ⟨a, b⟩ := p
    rw [getA, keysOf, List.map_cons]
    by_cases h : a = k
    · rw [if_pos h]
      constructor
      · intro hc
        exact (Option.some_ne_none b hc).elim
      · intro hc
        exact (hc (List.mem_cons.mpr (Or.inl h.symm))).elim
    · rw [if_neg h, ih, keysOf]
      constructor
      · intro hn hm
        rcases List.mem_cons.mp hm with hc | hc
        · exact h hc.symm
        · exact hn hc
      · intro hn hm
        exact hn (List.mem_cons.mpr (Or.inr hm))

theorem nodup_keysOf_setA {α : Type} {m : List (Str × α)}
    (h : (keysOf m).Nodup) (k : Str) (v : α) :
    (keysOf (setA m k v)).Nodup := by
  rw [keysOf_setA]
  by_cases hm : k ∈ keysOf m
  · rw [if_pos hm]
    exact h
  · rw [if_neg hm, List.nodup_append]
    refine ⟨h, List.nodup_singleton k, ?_⟩
    intro a ha hb
    rw [List.mem_singleton.mp hb] at ha
    exact hm ha

theorem mem_iff_getA {α : Type} {m : List (Str × α)}
    (h : (keysOf m).Nodup) {k : Str} {v : α} :
    (k, v) ∈ m ↔ getA m k = some v := by
  induction m with
  | nil => simp [getA]
  | cons p t ih =>
    obtain ⟨a, b⟩ := p
    rw [keysOf, List.map_cons, List.nodup_cons] at h
    by_cases hak : a = k
    · subst hak
      rw [getA, if_pos rfl]
      constructor
      · intro hm
        rcases List.mem_cons.mp hm with he | hm'
        · injection he with h1 h2
          rw [h2]
        · exact absurd (List.mem_map_of_mem Prod.fst hm') h.1
      · intro hv
        injection hv with h2
        exact List.mem_cons.mpr (Or.inl (by rw [h2]))
    · rw [getA, if_neg hak]
      rw [← ih h.2]
      constructor
      · intro hm
        rcases List.mem_cons.mp hm with he | hm'
        · exact absurd (congrArg Prod.fst he).symm hak
        · exact hm'
      · intro hm
        exact List.mem_cons.mpr (Or.inr hm)

/-! Characterization of the per-file-deduplicated tallies. -/

theorem tallyFold_getA (key : Str → Option Str) (lines : List Str)
    (m : List (Str × Nat)) (seen : List Str) (k : Str) :
    getA ((lines.foldl (tallyLine key) (m, seen)).1) k
      = if k ∉ seen ∧ k ∈ lines.filterMap key then some (getAD m k + 1)
        else getA m k := by
  induction lines generalizing m seen with
  | nil =>
    simp only [List.foldl_nil, List.filterMap_nil, List.not_mem_nil,
      and_false, if_false]
  | cons line rest ih =>
    simp only [List.foldl_cons]
    cases hk : key line with
    | none =>
      simp only [tallyLine, hk, List.filterMap_cons]
      exact ih m seen
    | some j =>
      simp only [tallyLine, hk, List.filterMap_cons]
      by_cases hj : j ∈ seen
      · rw [if_pos hj]
        rw [ih m seen]
        by_cases h1 : k ∈ seen
        · rw [if_neg (by simp [h1]), if_neg (by simp [h1])]
        · by_cases h2 : k ∈ rest.filterMap key
          · rw [if_pos ⟨h1, h2⟩, if_pos ⟨h1, List.mem_cons.mpr (Or.inr h2)⟩]
          · rw [if_neg (by simp [h2])]
            have hkj : ¬ k = j := fun hc => h1 (hc ▸ hj)
            rw [if_neg (by
              rintro ⟨hn, hm⟩
              rcases List.mem_cons.mp hm with hc | hc
              · exact hkj hc
              · exact h2 hc)]
      · rw [if_neg hj]
        rw [ih]
        by_cases hkj : k = j
        · subst hkj
          rw [if_neg (by
            rintro ⟨hn, _⟩
            exact hn (List.mem_cons_self k seen))]
          rw [getA_setA_self]
          rw [if_pos ⟨hj, List.mem_cons.mpr (Or.inl rfl)⟩]
        · have hg1 : getA (setA m j (getAD m j + 1)) k = getA m k :=
            getA_setA_ne m hkj _
          have hg2 : getAD (setA m j (getAD m j + 1)) k = getAD m k := by
            rw [getAD, hg1, getAD]
          by_cases h1 : k ∈ seen
          · rw [if_neg (by simp [h1]), if_neg (by simp [h1]), hg1]
          · by_cases h2 : k ∈ rest.filterMap key
            · rw [if_pos ⟨by simp [h1, hkj], h2⟩, hg2,
                if_pos ⟨h1, List.mem_cons.mpr (Or.inr h2)⟩]
            · rw [if_neg (by simp [h2]), hg1,
                if_neg (by
                  rintro ⟨hn, hm⟩
                  rcases List.mem_cons.mp hm with hc | hc
                  · exact hkj hc
                  · exact h2 hc)]

theorem tallyFile_getA (key : Str → Option Str) (m : List (Str × Nat))
    (file : List Str) (k : Str) :
    getA (tallyFile key m file) k
      = if fileHas key k file then some (getAD m k + 1) else getA m k := by
  rw [tallyFile, tallyFold_getA]
  by_cases h : k ∈ file.filterMap key
  · rw [if_pos ⟨List.not_mem_nil k, h⟩, if_pos (by
      rw [fileHas]
      exact decide_eq_true h)]
  · rw [if_neg (by rintro ⟨_, hm⟩; exact h hm), if_neg (by
      rw [fileHas]
      simpa using h)]

theorem tallyFile_getAD (key : Str → Option Str) (m : List (Str × Nat))
    (file : List Str) (k : Str) :
    getAD (tallyFile key m file) k
      = getAD m k + (if fileHas key k file then 1 else 0) := by
  rw [getAD, tallyFile_getA]
  by_cases h : fileHas key k file
  · rw [if_pos h, if_pos h]
    rfl
  · rw [if_neg h, if_neg h]
    rw [getAD]
    omega

theorem tallyFoldFiles_getA (key : Str → Option Str)
    (files : List (List Str)) (m : List (Str × Nat)) (k : Str) :
    getA (files.foldl (tallyFile key) m) k
      = if files.countP (fileHas key k) = 0 then getA m k
        else some (getAD m k + files.countP (fileHas key k)) := by
  induction files generalizing m with
  | nil =>
    simp only [List.foldl_nil, List.countP_nil, if_true]
  | cons f rest ih =>
    simp only [List.foldl_cons, List.countP_cons]
    rw [ih, tallyFile_getA, tallyFile_getAD]
    by_cases hf : fileHas key k f = true
    · rw [if_pos hf, if_pos hf,
        if_neg (show ¬(rest.countP (fileHas key k) + 1 = 0) by omega)]
      by_cases hr : rest.countP (fileHas key k) = 0
      · rw [if_pos hr]
        congr 1
        omega
      · rw [if_neg hr]
        congr 1
        omega
    · rw [if_neg hf, if_neg hf]
      by_cases hr : rest.countP (fileHas key k) = 0
      · rw [if_pos hr, if_pos (by omega)]
      · rw [if_neg hr, if_neg (by omega)]
        congr 1

theorem tally_getA (key : Str → Option Str) (files : List (List Str))
    (k : Str) :
    getA (tally key files) k
      = if files.countP (fileHas key k) = 0 then none
        else some (files.countP (fileHas key k)) := by
  rw [tally, tallyFoldFiles_getA]
  by_cases h : files.countP (fileHas key k) = 0
  · rw [if_pos h, if_pos h, getA]
  · rw [if_neg h, if_neg h]
    have h0 : getAD ([] : List (Str × Nat)) k = 0 := rfl
    rw [h0, Nat.zero_add]

theorem tally_getAD (key : Str → Option Str) (files : List (List Str))
    (k : Str) :
    getAD (tally key files) k = files.countP (fileHas key k) := by
  rw [getAD, tally_getA]
  by_cases h : files.countP (fileHas key k) = 0
  · rw [if_pos h, h]
    rfl
  · rw [if_neg h]
    rfl

/-! Key-set facts and permutation invariance. -/

theorem nodup_keysOf_tallyFold (key : Str → Option Str) (lines : List Str)
    (m : List (Str × Nat)) (seen : List Str) (h : (keysOf m).Nodup) :
    (keysOf ((lines.foldl (tallyLine key) (m, seen)).1)).Nodup := by
  induction lines generalizing m seen with
  | nil => exact h
  | cons line rest ih =>
    simp only [List.foldl_cons]
    cases hk : key line with
    | none =>
      simp only [tallyLine, hk]
      exact ih m seen h
    | some j =>
      simp only [tallyLine, hk]
      by_cases hj : j ∈ seen
      · rw [if_pos hj]
        exact ih m seen h
      · rw [if_neg hj]
        exact ih _ _ (nodup_keysOf_setA h j _)

theorem nodup_keysOf_tally (key : Str → Option Str)
    (files : List (List Str)) : (keysOf (tally key files)).Nodup := by
  rw [tally]
  have aux : ∀ (fs : List (List Str)) (m : List (Str × Nat)),
      (keysOf m).Nodup → (keysOf (fs.foldl (tallyFile key) m)).Nodup := by
    intro fs
    induction fs with
    | nil => intro m h; exact h
    | cons f rest ih =>
      intro m h
      simp only [List.foldl_cons]
      exact ih _ (nodup_keysOf_tallyFold key f m [] h)
  exact aux files [] List.nodup_nil

theorem nodup_tally (key : Str → Option Str) (files : List (List Str)) :
    (tally key files).Nodup :=
  (nodup_keysOf_tally key files).of_map

theorem mem_tally_iff (key : Str → Option Str) (files : List (List Str))
    {k : Str} {c : Nat} :
    (k, c) ∈ tally key files ↔
      files.countP (fileHas key k) = c ∧ 0 < c := by
  rw [mem_iff_getA (nodup_keysOf_tally key files), tally_getA]
  by_cases h : files.countP (fileHas key k) = 0
  · rw [if_pos h]
    constructor
    · intro hc
      simp at hc
    · rintro ⟨hc, hpos⟩
      omega
  · rw [if_neg h]
    constructor
    · intro hc
      injection hc with hc
      exact ⟨hc, by omega⟩
    · rintro ⟨hc, hpos⟩
      rw [hc]

theorem tally_perm (key : Str → Option Str) {files₁ files₂ : List (List Str)}
    (h : files₁.Perm files₂) : (tally key files₁).Perm (tally key files₂) := by
  rw [List.perm_ext_iff_of_nodup (nodup_tally key files₁)
    (nodup_tally key files₂)]
  rintro ⟨k, c⟩
  rw [mem_tally_iff, mem_tally_iff, h.countP_eq]

/-! Sorted output is determined by the multiset of entries. -/

theorem sortedByFreq_sorted (m : List (Str × Nat)) :
    List.Sorted relFreq (sortedByFreq m) :=
  List.sorted_insertionSort relFreq m

theorem sortedByFreq_eq_of_perm {m₁ m₂ : List (Str × Nat)}
    (h : m₁.Perm m₂) : sortedByFreq m₁ = sortedByFreq m₂ :=
  List.eq_of_perm_of_sorted
    ((List.perm_insertionSort relFreq m₁).trans
      (h.trans (List.perm_insertionSort relFreq m₂).symm))
    (List.sorted_insertionSort relFreq m₁)
    (List.sorted_insertionSort relFreq m₂)

theorem sortedAlpha_sorted (l : List Str) :
    List.Sorted relAlpha (sortedAlpha l) :=
  List.sorted_insertionSort relAlpha l

theorem sortedAlpha_eq_of_perm {l₁ l₂ : List Str} (h : l₁.Perm l₂) :
    sortedAlpha l₁ = sortedAlpha l₂ :=
  List.eq_of_perm_of_sorted
    ((List.perm_insertionSort relAlpha l₁).trans
      (h.trans (List.perm_insertionSort relAlpha l₂).symm))
    (List.sorted_insertionSort relAlpha l₁)
    (List.sorted_insertionSort relAlpha l₂)


/-! Keys of `extract_packages`. -/

theorem keysOf_addVersion_step2 (m1 : List (Str × List Str)) (n : Str)
    (v : Str) :
    keysOf (match getA m1 n with
      | none => m1
      | some vs => if v ≠ [] ∧ v ∉ vs then setA m1 n (vs ++ [v]) else m1)
      = keysOf m1 := by
  cases hg : getA m1 n with
  | none => rfl
  | some vs =>
    have hn : n ∈ keysOf m1 := by
      by_contra hn
      rw [← getA_eq_none_iff m1 n] at hn
      rw [hn] at hg
      exact Option.noConfusion hg
    by_cases hc : v ≠ [] ∧ v ∉ vs
    · simp only [if_pos hc]
      rw [keysOf_setA, if_pos hn]
    · simp only [if_neg hc]

theorem keysOf_addVersion_step1 (m : List (Str × List Str)) (n : Str) :
    keysOf (match getA m n with
      | none => setA m n ([] : List Str)
      | some _ => m)
      = if n ∈ keysOf m then keysOf m else keysOf m ++ [n] := by
  cases hg : getA m n with
  | none =>
    have hn : n ∉ keysOf m := (getA_eq_none_iff m n).mp hg
    rw [keysOf_setA, if_neg hn]
  | some vs =>
    have hn : n ∈ keysOf m := by
      by_contra hn
      rw [← getA_eq_none_iff m n] at hn
      rw [hn] at hg
      exact Option.noConfusion hg
    rw [if_pos hn]

theorem keysOf_addVersion (m : List (Str × List Str)) (line : Str) :
    keysOf (addVersion m line)
      = match nameOf line with
        | none => keysOf m
        | some n => if n ∈ keysOf m then keysOf m else keysOf m ++ [n] := by
  cases hp : parse_requirement line with
  | none =>
    rw [nameOf, hp]
    simp only [addVersion, hp]
    rfl
  | some p =>
    obtain ⟨n, v⟩ := p
    rw [nameOf, hp]
    simp only [addVersion, hp]
    rw [keysOf_addVersion_step2, keysOf_addVersion_step1]
    rfl

theorem mem_keysOf_addVersion (m : List (Str × List Str)) (line : Str)
    (k : Str) :
    k ∈ keysOf (addVersion m line) ↔
      k ∈ keysOf m ∨ nameOf line = some k := by
  rw [keysOf_addVersion]
  cases hn : nameOf line with
  | none =>
    simp
  | some n =>
    simp only [Option.some.injEq]
    by_cases hm : n ∈ keysOf m
    · rw [if_pos hm]
      constructor
      · intro h
        exact Or.inl h
      · rintro (h | h)
        · exact h
        · rw [← h]
          exact hm
    · rw [if_neg hm]
      rw [List.mem_append, List.mem_singleton]
      constructor
      · rintro (h | h)
        · exact Or.inl h
        · exact Or.inr h.symm
      · rintro (h | h)
        · exact Or.inl h
        · exact Or.inr h.symm

theorem nodup_keysOf_addVersion {m : List (Str × List Str)}
    (h : (keysOf m).Nodup) (line : Str) :
    (keysOf (addVersion m line)).Nodup := by
  rw [keysOf_addVersion]
  cases nameOf line with
  | none => exact h
  | some n =>
    dsimp only
    by_cases hm : n ∈ keysOf m
    · rw [if_pos hm]
      exact h
    · rw [if_neg hm, List.nodup_append]
      refine ⟨h, List.nodup_singleton n, ?_⟩
      intro a ha hb
      rw [List.mem_singleton.mp hb] at ha
      exact hm ha

theorem mem_keysOf_extractFoldFile (file : List Str)
    (m : List (Str × List Str)) (k : Str) :
    k ∈ keysOf (file.foldl addVersion m) ↔
      k ∈ keysOf m ∨ k ∈ file.filterMap nameOf := by
  induction file generalizing m with
  | nil => simp
  | cons line rest ih =>
    simp only [List.foldl_cons]
    rw [ih]
    cases hn : nameOf line with
    | none =>
      rw [mem_keysOf_addVersion, hn]
      simp only [List.filterMap_cons, hn]
      constructor
      · rintro ((h | h) | h)
        · exact Or.inl h
        · exact Option.noConfusion h
        · exact Or.inr h
      · rintro (h | h)
        · exact Or.inl (Or.inl h)
        · exact Or.inr h
    | some n =>
      rw [mem_keysOf_addVersion, hn]
      simp only [List.filterMap_cons, hn, List.mem_cons, Option.some.injEq]
      constructor
      · rintro ((h | h) | h)
        · exact Or.inl h
        · exact Or.inr (Or.inl h.symm)
        · exact Or.inr (Or.inr h)
      · rintro (h | h | h)
        · exact Or.inl (Or.inl h)
        · exact Or.inl (Or.inr h.symm)
        · exact Or.inr h

theorem nodup_keysOf_extractFoldFile (file : List Str)
    {m : List (Str × List Str)} (h : (keysOf m).Nodup) :
    (keysOf (file.foldl addVersion m)).Nodup := by
  induction file generalizing m with
  | nil => exact h
  | cons line rest ih =>
    simp only [List.foldl_cons]
    exact ih (nodup_keysOf_addVersion h line)

theorem mem_keysOf_extract_packages (files : List (List Str)) (k : Str) :
    k ∈ keysOf (extract_packages files) ↔
      0 < files.countP (fileHas nameOf k) := by
  rw [extract_packages]
  have aux : ∀ (fs : List (List Str)) (m : List (Str × List Str)),
      k ∈ keysOf (fs.foldl (fun m file => file.foldl addVersion m) m) ↔
        k ∈ keysOf m ∨ ∃ f ∈ fs, k ∈ f.filterMap nameOf := by
    intro fs
    induction fs with
    | nil => simp
    | cons f rest ih =>
      intro m
      simp only [List.foldl_cons]
      rw [ih, mem_keysOf_extractFoldFile]
      simp only [List.mem_cons]
      constructor
      · rintro ((h | h) | h)
        · exact Or.inl h
        · exact Or.inr ⟨f, Or.inl rfl, h⟩
        · obtain ⟨g, hg, hk⟩ := h
          exact Or.inr ⟨g, Or.inr hg, hk⟩
      · rintro (h | h)
        · exact Or.inl (Or.inl h)
        · obtain ⟨g, hg | hg, hk⟩ := h
          · rw [hg] at hk
            exact Or.inl (Or.inr hk)
          · exact Or.inr ⟨g, hg, hk⟩
  rw [aux files [], List.countP_pos_iff]
  simp only [keysOf, List.map_nil, List.not_mem_nil, false_or]
  constructor
  · rintro ⟨f, hf, hk⟩
    exact ⟨f, hf, by rw [fileHas]; exact decide_eq_true hk⟩
  · rintro ⟨f, hf, hk⟩
    rw [fileHas] at hk
    exact ⟨f, hf, of_decide_eq_true hk⟩

theorem nodup_keysOf_extract_packages (files : List (List Str)) :
    (keysOf (extract_packages files)).Nodup := by
  rw [extract_packages]
  have aux : ∀ (fs : List (List Str)) (m : List (Str × List Str)),
      (keysOf m).Nodup →
      (keysOf (fs.foldl (fun m file => file.foldl addVersion m) m)).Nodup := by
    intro fs
    induction fs with
    | nil => intro m h; exact h
    | cons f rest ih =>
      intro m h
      simp only [List.foldl_cons]
      exact ih _ (nodup_keysOf_extractFoldFile f h)
  exact aux files [] List.nodup_nil

theorem keysOf_extract_packages_perm {files₁ files₂ : List (List Str)}
    (h : files₁.Perm files₂) :
    (keysOf (extract_packages files₁)).Perm
      (keysOf (extract_packages files₂)) := by
  rw [List.perm_ext_iff_of_nodup (nodup_keysOf_extract_packages files₁)
    (nodup_keysOf_extract_packages files₂)]
  intro k
  rw [mem_keysOf_extract_packages, mem_keysOf_extract_packages,
    h.countP_eq]

/-! Write-chunk concatenation. -/

theorem chunksText_take_append (chunks : List Str) (k : Nat) :
    chunksText (chunks.take k) ++ chunksText (chunks.drop k)
      = chunksText chunks := by
  rw [chunksText, chunksText, chunksText, ← List.flatten_append,
    List.take_append_drop]

/-! Characterization of `findVersionSpec` and `matchName`. -/

theorem head_of_dropWhile_eq_cons {α : Type} {p : α → Bool} {l : List α}
    {x : α} {xs : List α} (h : l.dropWhile p = x :: xs) : p x = false := by
  have hw := List.head?_dropWhile_not p l
  rw [h] at hw
  simpa using hw

theorem isOpChar_cases {c : Char} (h : isOpChar c = true) :
    c = '=' ∨ c = '<' ∨ c = '>' ∨ c = '!' := by
  simp only [isOpChar, Bool.or_eq_true, decide_eq_true_eq] at h
  tauto

theorem op_not_space {c : Char} (h : isOpChar c = true) :
    isSpaceChar c = false := by
  rcases isOpChar_cases h with h' | h' | h' | h' <;> subst h' <;> decide

theorem findVersionSpec_cases (rest : Str) :
    (rest.dropWhile (fun c => !isOpChar c) = [] ∧ findVersionSpec rest = [])
    ∨ (rest.dropWhile (fun c => !isOpChar c) ≠ [] ∧
       findVersionSpec rest =
         (rest.dropWhile (fun c => !isOpChar c)).takeWhile
           (fun c => !isSpaceChar c)) := by
  cases hafter : rest.dropWhile (fun c => !isOpChar c) with
  | nil =>
    left
    refine ⟨rfl, ?_⟩
    simp only [findVersionSpec, hafter]
  | cons dh dt =>
    right
    refine ⟨by simp, ?_⟩
    simp only [findVersionSpec, hafter]
    apply strip_eq_self
    intro x hx
    simpa using List.mem_takeWhile_imp hx

theorem findVersionSpec_no_space (rest : Str) :
    ∀ x ∈ findVersionSpec rest, isSpaceChar x = false := by
  rcases findVersionSpec_cases rest with ⟨h1, h2⟩ | ⟨h1, h2⟩ <;> rw [h2]
  · intro x hx
    simp at hx
  · intro x hx
    simpa using List.mem_takeWhile_imp hx

theorem findVersionSpec_head_op (rest : Str) {x : Char}
    (h : (findVersionSpec rest).head? = some x) : isOpChar x = true := by
  rcases findVersionSpec_cases rest with ⟨h1, h2⟩ | ⟨h1, h2⟩
  · rw [h2] at h
    exact absurd h (by simp)
  · obtain ⟨dh, dt, he⟩ := List.exists_cons_of_ne_nil h1
    have hop : isOpChar dh = true := by
      simpa using head_of_dropWhile_eq_cons he
    rw [h2, he, List.takeWhile_cons, if_pos (by simp [op_not_space hop])] at h
    rw [List.head?_cons, Option.some.injEq] at h
    rw [← h]
    exact hop

theorem findVersionSpec_of_no_op {rest : Str}
    (h : ∀ c ∈ rest, isOpChar c = false) : findVersionSpec rest = [] := by
  rcases findVersionSpec_cases rest with ⟨h1, h2⟩ | ⟨h1, h2⟩
  · exact h2
  · exfalso
    apply h1
    rw [List.dropWhile_eq_nil_iff]
    intro x hx
    simp [h x hx]

theorem findVersionSpec_eq_specSide (rest : Str) :
    findVersionSpec rest = specSide rest := by
  induction rest with
  | nil => rfl
  | cons c t ih =>
    by_cases hc : isOpChar c = true
    · have hd : (c :: t).dropWhile (fun c => !isOpChar c) = c :: t := by
        rw [List.dropWhile_cons, if_neg (by simp [hc])]
      have hi : (c :: t).findIdx? isOpChar = some 0 := by
        simp [List.findIdx?_cons, hc]
      simp only [findVersionSpec, specSide, hd, hi, List.drop_zero]
    · have hd : (c :: t).dropWhile (fun c => !isOpChar c)
          = t.dropWhile (fun c => !isOpChar c) := by
        rw [List.dropWhile_cons, if_pos (by simp [hc])]
      have hfv : findVersionSpec (c :: t) = findVersionSpec t := by
        simp only [findVersionSpec, hd]
      rw [hfv, ih, specSide, specSide]
      have hi : (c :: t).findIdx? isOpChar
          = (t.findIdx? isOpChar).map (· + 1) := by
        simp [List.findIdx?_cons, hc]
      rw [hi]
      cases hit : t.findIdx? isOpChar with
      | none => rfl
      | some i => simp [List.drop_succ_cons]

theorem findVersionSpec_split (rest : Str) {c : Char} (hc : c ∈ rest)
    (hop : isOpChar c = true) :
    ∃ a b, rest = a ++ findVersionSpec rest ++ b
      ∧ (∀ x ∈ a, isOpChar x = false)
      ∧ findVersionSpec rest ≠ []
      ∧ (b = [] ∨ ∀ y, b.head? = some y → isSpaceChar y = true) := by
  have hne : rest.dropWhile (fun c => !isOpChar c) ≠ [] := by
    intro hnil
    rw [List.dropWhile_eq_nil_iff] at hnil
    have := hnil c hc
    rw [hop] at this
    exact absurd this (by decide)
  rcases findVersionSpec_cases rest with ⟨h1, _⟩ | ⟨_, h2⟩
  · exact absurd h1 hne
  · refine ⟨rest.takeWhile (fun c => !isOpChar c),
      (rest.dropWhile (fun c => !isOpChar c)).dropWhile
        (fun c => !isSpaceChar c), ?_, ?_, ?_, ?_⟩
    · rw [h2, List.append_assoc, List.takeWhile_append_dropWhile,
        List.takeWhile_append_dropWhile]
    · intro x hx
      simpa using List.mem_takeWhile_imp hx
    · rw [h2]
      obtain ⟨dh, dt, he⟩ := List.exists_cons_of_ne_nil hne
      have hop' : isOpChar dh = true := by
        simpa using head_of_dropWhile_eq_cons he
      rw [he, List.takeWhile_cons, if_pos (by simp [op_not_space hop'])]
      simp
    · cases hb : (rest.dropWhile (fun c => !isOpChar c)).dropWhile
          (fun c => !isSpaceChar c) with
      | nil => exact Or.inl rfl
      | cons bh bt =>
        right
        intro y hy
        have hw : isSpaceChar bh = true := by
          simpa using head_of_dropWhile_eq_cons hb
        rw [List.head?_cons, Option.some.injEq] at hy
        rw [← hy]
        exact hw

/-! Facts about the matched package name. -/

theorem matchName_facts {l name rem : Str}
    (h : matchName l = some (name, rem)) :
    name ≠ [] ∧ (∀ x ∈ name, isNameTail x = true) ∧
    (∀ x, name.head? = some x → x.isAlphanum = true) ∧
    (∀ x, name.getLast? = some x → x.isAlphanum = true) := by
  cases l with
  | nil => exact absurd h (by simp [matchName])
  | cons c rest =>
    simp only [matchName] at h
    by_cases hc : c.isAlphanum = true
    · rw [if_pos hc, Option.some.injEq, Prod.mk.injEq] at h
      obtain ⟨h1, _⟩ := h
      rw [← h1]
      refine ⟨by simp, ?_, ?_, ?_⟩
      · intro x hx
        rcases List.mem_cons.mp hx with hx | hx
        · rw [hx, isNameTail, hc]
          rfl
        · have hx1 : x ∈ (rest.takeWhile isNameTail).reverse.dropWhile
              (fun c => !c.isAlphanum) := by
            rwa [← List.mem_reverse]
          have hx2 := List.dropWhile_subset _ hx1
          rw [List.mem_reverse] at hx2
          exact List.mem_takeWhile_imp hx2
      · intro x hx
        rw [List.head?_cons, Option.some.injEq] at hx
        rw [← hx]
        exact hc
      · intro x hx
        cases hw : (rest.takeWhile isNameTail).reverse.dropWhile
            (fun c => !c.isAlphanum) with
        | nil =>
          rw [hw] at hx
          simp only [List.reverse_nil] at hx
          rw [List.getLast?_singleton, Option.some.injEq] at hx
          rw [← hx]
          exact hc
        | cons wh wt =>
          have halnum : wh.isAlphanum = true := by
            simpa using head_of_dropWhile_eq_cons hw
          rw [hw] at hx
          simp only [List.reverse_cons] at hx
          rw [← List.cons_append, List.getLast?_concat,
            Option.some.injEq] at hx
          rw [← hx]
          exact halnum
    · rw [if_neg hc] at h
      exact absurd h (by simp)

/-- Unfolding `parse_requirement` on a successful parse. -/
theorem parse_requirement_some {line n v : Str}
    (h : parse_requirement line = some (n, v)) :
    ∃ name rem, matchName (strip (stripComment line)) = some (name, rem) ∧
      n = normName name ∧ v = findVersionSpec rem := by
  simp only [parse_requirement] at h
  by_cases h1 : strip (stripComment line) = []
  · rw [if_pos h1] at h
    exact absurd h (by simp)
  · rw [if_neg h1] at h
    by_cases h2 : urlLike (strip (stripComment line)) = true
    · rw [if_pos h2] at h
      exact absurd h (by simp)
    · rw [if_neg h2] at h
      cases hm : matchName (strip (stripComment line)) with
      | none =>
        rw [hm] at h
        exact absurd h (by simp)
      | some p =>
        obtain ⟨name, rem⟩ := p
        rw [hm, Option.some.injEq, Prod.mk.injEq] at h
        exact ⟨name, rem, rfl, h.1.symm, h.2.symm⟩

/-! Facts about related spellings (case / underscore-hyphen variants). -/

theorem isSpaceChar_cases {c : Char} (h : isSpaceChar c = true) :
    c = ' ' ∨ c = '\t' ∨ c = '\n' ∨ c = '\r' ∨ c = '\x0b' ∨ c = '\x0c' := by
  simp only [isSpaceChar, Bool.or_eq_true, decide_eq_true_eq] at h
  tauto

theorem isNameTail_cases {c : Char} (h : isNameTail c = true) :
    c.isAlphanum = true ∨ c = '.' ∨ c = '_' ∨ c = '-' := by
  simp only [isNameTail, Bool.or_eq_true, decide_eq_true_eq] at h
  tauto

theorem alnum_not_space {c : Char} (h : c.isAlphanum = true) :
    isSpaceChar c = false := by
  cases hs : isSpaceChar c
  · rfl
  · exfalso
    rcases isSpaceChar_cases hs with h' | h' | h' | h' | h' | h' <;>
      subst h' <;> exact absurd h (by decide)

theorem nameTail_not_space {c : Char} (h : isNameTail c = true) :
    isSpaceChar c = false := by
  rcases isNameTail_cases h with h' | h' | h' | h'
  · exact alnum_not_space h'
  · subst h'; decide
  · subst h'; decide
  · subst h'; decide

theorem nameTail_ne_hash {c : Char} (h : isNameTail c = true) : c ≠ '#' := by
  intro he
  subst he
  exact absurd h (by decide)

theorem startsWithL_exists {p l : Str} (h : startsWithL p l = true) :
    ∃ u, l = p ++ u := by
  induction p generalizing l with
  | nil => exact ⟨l, rfl⟩
  | cons a ps ih =>
    cases l with
    | nil => exact absurd h (by simp [startsWithL])
    | cons c cs =>
      rw [startsWithL, Bool.and_eq_true, decide_eq_true_eq] at h
      obtain ⟨u, hu⟩ := ih h.2
      exact ⟨u, by rw [List.cons_append, ← hu, h.1]⟩

theorem urlLike_eq_false_of_nameTail {s : Str}
    (hs : ∀ c ∈ s, isNameTail c = true) : urlLike s = false := by
  cases hu : urlLike s
  · rfl
  · exfalso
    rw [urlLike] at hu
    simp only [Bool.or_eq_true] at hu
    rcases hu with ((h | h) | h) | h
    · obtain ⟨u, rfl⟩ := startsWithL_exists h
      have := hs ':' (by
        rw [List.mem_append]
        exact Or.inl (by decide))
      exact absurd this (by decide)
    · obtain ⟨u, rfl⟩ := startsWithL_exists h
      have := hs ':' (by
        rw [List.mem_append]
        exact Or.inl (by decide))
      exact absurd this (by decide)
    · obtain ⟨u, rfl⟩ := startsWithL_exists h
      have := hs '+' (by
        rw [List.mem_append]
        exact Or.inl (by decide))
      exact absurd this (by decide)
    · obtain ⟨u, rfl⟩ := startsWithL_exists h
      have := hs ' ' (by
        rw [List.mem_append]
        exact Or.inl (by decide))
      exact absurd this (by decide)

/-- With only name characters, comment stripping, whitespace stripping and
the URL test are all inert, so `parse_requirement` goes straight to the
name match. -/
theorem parse_requirement_clean {s : Str}
    (hs : ∀ c ∈ s, isNameTail c = true) :
    parse_requirement s =
      match matchName s with
      | none => none
      | some (name, rest) => some (normName name, findVersionSpec rest) := by
  have hcomment : stripComment s = s := by
    rw [stripComment, List.takeWhile_eq_self_iff]
    intro c hc
    simpa using nameTail_ne_hash (hs c hc)
  have hstrip : strip s = s :=
    strip_eq_self (fun c hc => nameTail_not_space (hs c hc))
  cases hsnil : s with
  | nil => rfl
  | cons a as =>
    rw [parse_requirement]
    simp only [← hsnil, hcomment, hstrip]
    rw [if_neg (by rw [hsnil]; simp),
      if_neg (by rw [urlLike_eq_false_of_nameTail hs]; simp)]

theorem relatedCharB_alnum {c d : Char} (h : relatedCharB c d = true) :
    c.isAlphanum = d.isAlphanum := by
  rw [relatedCharB] at h
  simp only [Bool.or_eq_true, Bool.and_eq_true, decide_eq_true_eq] at h
  rcases h with (⟨⟨hc, hd⟩, _⟩ | ⟨hc, hd⟩) | h
  · rw [Char.isAlphanum, Char.isAlphanum, hc, hd]
    simp only [Bool.true_or]
  · rcases hc with hc | hc <;> rcases hd with hd | hd <;>
      subst hc <;> subst hd <;> decide
  · rw [h]

theorem relatedCharB_normChar {c d : Char} (h : relatedCharB c d = true) :
    normChar c = normChar d := by
  rw [relatedCharB] at h
  simp only [Bool.or_eq_true, Bool.and_eq_true, decide_eq_true_eq] at h
  rcases h with (⟨_, hl⟩ | ⟨hc, hd⟩) | h
  · rw [normChar, normChar, hl]
  · rcases hc with hc | hc <;> rcases hd with hd | hd <;>
      subst hc <;> subst hd <;> decide
  · rw [h]

theorem relatedCharB_nameTail {c d : Char} (h : relatedCharB c d = true)
    (hc : isNameTail c = true) : isNameTail d = true := by
  rw [relatedCharB] at h
  simp only [Bool.or_eq_true, Bool.and_eq_true, decide_eq_true_eq] at h
  rcases h with (⟨⟨_, hd⟩, _⟩ | ⟨_, hd⟩) | h
  · rw [isNameTail, Char.isAlphanum, hd]
    rfl
  · rcases hd with hd | hd <;> subst hd <;> decide
  · rw [← h]
    exact hc

theorem relatedStr_append {u v : Str} (h : relatedStr u v = true)
    {a b : Char} (hab : relatedCharB a b = true) :
    relatedStr (u ++ [a]) (v ++ [b]) = true := by
  induction u generalizing v with
  | nil =>
    cases v with
    | nil => simp [relatedStr, hab]
    | cons y ys => exact absurd h (by simp [relatedStr])
  | cons x xs ih =>
    cases v with
    | nil => exact absurd h (by simp [relatedStr])
    | cons y ys =>
      rw [relatedStr, Bool.and_eq_true] at h
      rw [List.cons_append, List.cons_append, relatedStr,
        Bool.and_eq_true]
      exact ⟨h.1, ih h.2⟩

theorem relatedStr_reverse {u v : Str} (h : relatedStr u v = true) :
    relatedStr u.reverse v.reverse = true := by
  induction u generalizing v with
  | nil =>
    cases v with
    | nil => exact h
    | cons y ys => exact absurd h (by simp [relatedStr])
  | cons x xs ih =>
    cases v with
    | nil => exact absurd h (by simp [relatedStr])
    | cons y ys =>
      rw [relatedStr, Bool.and_eq_true] at h
      rw [List.reverse_cons, List.reverse_cons]
      exact relatedStr_append (ih h.2) h.1

theorem relatedStr_dropWhile {p : Char → Bool}
    (hp : ∀ a b, relatedCharB a b = true → p a = p b) :
    ∀ {u v : Str}, relatedStr u v = true →
      relatedStr (u.dropWhile p) (v.dropWhile p) = true := by
  intro u
  induction u with
  | nil =>
    intro v h
    cases v with
    | nil => exact h
    | cons y ys => exact absurd h (by simp [relatedStr])
  | cons x xs ih =>
    intro v h
    cases v with
    | nil => exact absurd h (by simp [relatedStr])
    | cons y ys =>
      rw [relatedStr, Bool.and_eq_true] at h
      rw [List.dropWhile_cons, List.dropWhile_cons, ← hp x y h.1]
      by_cases hx : p x = true
      · rw [if_pos hx, if_pos hx]
        exact ih h.2
      · rw [if_neg hx, if_neg hx, relatedStr, Bool.and_eq_true]
        exact ⟨h.1, h.2⟩

theorem relatedStr_map_eq {f : Char → Char}
    (hf : ∀ a b, relatedCharB a b = true → f a = f b) :
    ∀ {u v : Str}, relatedStr u v = true → u.map f = v.map f := by
  intro u
  induction u with
  | nil =>
    intro v h
    cases v with
    | nil => rfl
    | cons y ys => exact absurd h (by simp [relatedStr])
  | cons x xs ih =>
    intro v h
    cases v with
    | nil => exact absurd h (by simp [relatedStr])
    | cons y ys =>
      rw [relatedStr, Bool.and_eq_true] at h
      rw [List.map_cons, List.map_cons, hf x y h.1, ih h.2]

theorem relatedStr_all_nameTail {u v : Str} (h : relatedStr u v = true)
    (hu : ∀ c ∈ u, isNameTail c = true) : ∀ d ∈ v, isNameTail d = true := by
  induction u generalizing v with
  | nil =>
    cases v with
    | nil => intro d hd; simp at hd
    | cons y ys => exact absurd h (by simp [relatedStr])
  | cons x xs ih =>
    cases v with
    | nil => exact absurd h (by simp [relatedStr])
    | cons y ys =>
      rw [relatedStr, Bool.and_eq_true] at h
      intro d hd
      rcases List.mem_cons.mp hd with hd | hd
      · rw [hd]
        exact relatedCharB_nameTail h.1 (hu x (List.mem_cons_self x xs))
      · exact ih h.2 (fun c hc => hu c (List.mem_cons.mpr (Or.inr hc))) d hd

/-- Related all-name-character spellings parse to the same normalized
name. -/
theorem parse_name_of_related {s t : Str} (hrel : relatedStr s t = true)
    (hs : ∀ c ∈ s, isNameTail c = true) :
    (parse_requirement s).map Prod.fst
      = (parse_requirement t).map Prod.fst := by
  have ht : ∀ c ∈ t, isNameTail c = true := relatedStr_all_nameTail hrel hs
  rw [parse_requirement_clean hs, parse_requirement_clean ht]
  cases s with
  | nil =>
    cases t with
    | nil => rfl
    | cons y ys => exact absurd hrel (by simp [relatedStr])
  | cons a as =>
    cases t with
    | nil => exact absurd hrel (by simp [relatedStr])
    | cons b bs =>
      rw [relatedStr, Bool.and_eq_true] at hrel
      obtain ⟨hab, hrest⟩ := hrel
      have hsas : ∀ c ∈ as, isNameTail c = true :=
        fun c hc => hs c (List.mem_cons.mpr (Or.inr hc))
      have htbs : ∀ c ∈ bs, isNameTail c = true :=
        fun c hc => ht c (List.mem_cons.mpr (Or.inr hc))
      rw [matchName, matchName]
      by_cases ha : a.isAlphanum = true
      · have hb : b.isAlphanum = true := by
          rw [← relatedCharB_alnum hab]
          exact ha
        rw [if_pos ha, if_pos hb]
        have hruna : as.takeWhile isNameTail = as :=
          List.takeWhile_eq_self_iff.mpr hsas
        have hrunb : bs.takeWhile isNameTail = bs :=
          List.takeWhile_eq_self_iff.mpr htbs
        have hkeep :
            (as.reverse.dropWhile (fun c => !c.isAlphanum)).reverse.map
                normChar
              = (bs.reverse.dropWhile
                  (fun c => !c.isAlphanum)).reverse.map normChar := by
          apply relatedStr_map_eq (fun x y hxy => relatedCharB_normChar hxy)
          apply relatedStr_reverse
          apply relatedStr_dropWhile
            (fun x y hxy => by rw [relatedCharB_alnum hxy])
          exact relatedStr_reverse hrest
        have hname :
            normName (a :: (as.reverse.dropWhile
                (fun c => !c.isAlphanum)).reverse)
              = normName (b :: (bs.reverse.dropWhile
                  (fun c => !c.isAlphanum)).reverse) := by
          rw [normName, normName, List.map_cons, List.map_cons,
            relatedCharB_normChar hab, hkeep]
        simp only [hruna, hrunb, Option.map_some]
        rw [hname]
        simp
      · have hb : ¬ b.isAlphanum = true := by
          rw [← relatedCharB_alnum hab]
          exact ha
        rw [if_neg ha, if_neg hb]

/-! The claims. -/

set_option maxRecDepth 40000

theorem allReports_uniqueNames (files : List (List Str)) :
    (allReports files).uniqueNames
      = chunksText (unique_packages_chunks (extract_packages files)) := rfl

theorem allReports_namesByFreq (files : List (List Str)) :
    (allReports files).namesByFreq
      = chunksText (frequency_report_chunks (extract_packages files) files) :=
  rfl

theorem allReports_uniqueSpecs (files : List (List Str)) :
    (allReports files).uniqueSpecs
      = chunksText (unique_with_versions_chunks (package_versions files)) :=
  rfl

theorem allReports_specsByFreq (files : List (List Str)) :
    (allReports files).specsByFreq
      = chunksText
          (frequency_with_versions_chunks (package_versions files) files) :=
  rfl

/-- C1 counterexample: on a run that finds zero manifest files, `main`
returns 0 *before* report generation (lines 347-349), so no reports are
generated at all — contradicting the claim that the four reports are still
written with a total of 0 unique packages. -/
theorem claim_C1_counterexample :
    (mainRun [] none).exitCode = 0 ∧ (mainRun [] none).reports = none :=
  ⟨rfl, rfl⟩

/-- C1 (amended): a run with zero manifest files exits with code 0, but
returns early: no reports are generated; the aggregates, had they been
computed on the empty file list, would all be empty. -/
theorem claim_C1 :
    (∀ ai, (mainRun [] ai).exitCode = 0 ∧ (mainRun [] ai).reports = none)
    ∧ extract_packages [] = [] ∧ package_versions [] = []
    ∧ package_counts [] = [] :=
  ⟨fun _ => ⟨rfl, rfl⟩, rfl, rfl, rfl⟩

/-- C2: one manifest file contributes at most 1 to any full-spec count and
at most 1 to any name's frequency count; in particular a file declaring
`pkg==1.0` on two separate lines contributes exactly 1 to both. -/
theorem claim_C2 :
    (∀ (pre post : List (List Str)) (file : List Str) (k : Str),
      getAD (package_versions (pre ++ file :: post)) k
          ≤ getAD (package_versions (pre ++ post)) k + 1
        ∧ getAD (package_counts (pre ++ file :: post)) k
          ≤ getAD (package_counts (pre ++ post)) k + 1)
    ∧ getAD (package_versions [["pkg==1.0".data, "pkg==1.0".data]])
        "pkg==1.0".data = 1
    ∧ getAD (package_counts [["pkg==1.0".data, "pkg==1.0".data]])
        "pkg".data = 1 := by
  refine ⟨?_, by decide, by decide⟩
  intro pre post file k
  have bound : ∀ key : Str → Option Str,
      getAD (tally key (pre ++ file :: post)) k
        ≤ getAD (tally key (pre ++ post)) k + 1 := by
    intro key
    rw [tally_getAD, tally_getAD, List.countP_append, List.countP_append,
      List.countP_cons]
    by_cases hf : fileHas key k file = true
    · rw [if_pos hf]
      omega
    · rw [if_neg hf]
      omega
  exact ⟨bound fullSpecOf, bound nameOf⟩

/-- C3 counterexample: swapping two manifest files changes the
names-by-frequency report text, because the version-specs column lists
version specs in first-encountered order across the file list. -/
theorem claim_C3_counterexample :
    List.Perm [["pkg==1.0".data], ["pkg==2.0".data]]
      [["pkg==2.0".data], ["pkg==1.0".data]]
    ∧ (allReports [["pkg==1.0".data], ["pkg==2.0".data]]).namesByFreq
      ≠ (allReports [["pkg==2.0".data], ["pkg==1.0".data]]).namesByFreq := by
  exact ⟨by decide, by decide⟩

/-- C3 (amended): permuting the manifest-file list leaves every name and
full-spec count, the unique-names report, the unique-full-specs report,
the full-specs-by-frequency report, and the row order (name/count pairs)
of the names-by-frequency report unchanged; only that report's joined
version-specs column may change, because version specs are listed in
first-encountered order across the file list. -/
theorem claim_C3 (files₁ files₂ : List (List Str))
    (h : files₁.Perm files₂) :
    (∀ k, getAD (package_versions files₁) k
        = getAD (package_versions files₂) k)
    ∧ (∀ k, getAD (package_counts files₁) k
        = getAD (package_counts files₂) k)
    ∧ (allReports files₁).uniqueNames = (allReports files₂).uniqueNames
    ∧ (allReports files₁).uniqueSpecs = (allReports files₂).uniqueSpecs
    ∧ (allReports files₁).specsByFreq = (allReports files₂).specsByFreq
    ∧ sortedByFreq (package_counts files₁)
        = sortedByFreq (package_counts files₂) := by
  have hpv : (package_versions files₁).Perm (package_versions files₂) :=
    tally_perm fullSpecOf h
  have hkeys : sortedAlpha (keysOf (extract_packages files₁))
      = sortedAlpha (keysOf (extract_packages files₂)) :=
    sortedAlpha_eq_of_perm (keysOf_extract_packages_perm h)
  refine ⟨?_, ?_, ?_, ?_, ?_, ?_⟩
  · intro k
    rw [package_versions, package_versions, tally_getAD, tally_getAD,
      h.countP_eq]
  · intro k
    rw [package_counts, package_counts, tally_getAD, tally_getAD,
      h.countP_eq]
  · rw [allReports_uniqueNames, allReports_uniqueNames,
      unique_packages_chunks, unique_packages_chunks, hkeys]
  · have hkv : sortedAlpha (keysOf (package_versions files₁))
        = sortedAlpha (keysOf (package_versions files₂)) :=
      sortedAlpha_eq_of_perm (hpv.map Prod.fst)
    rw [allReports_uniqueSpecs, allReports_uniqueSpecs,
      unique_with_versions_chunks, unique_with_versions_chunks, hkv]
  · rw [allReports_specsByFreq, allReports_specsByFreq,
      frequency_with_versions_chunks, frequency_with_versions_chunks,
      sortedByFreq_eq_of_perm hpv, h.length_eq, hpv.length_eq]
  · exact sortedByFreq_eq_of_perm (tally_perm nameOf h)

/-- C3 witness: the amended theorem applied to a concrete two-file
permutation. -/
theorem claim_C3_witness :
    (allReports [["a==1".data], ["b==2".data]]).uniqueNames
      = (allReports [["b==2".data], ["a==1".data]]).uniqueNames :=
  (claim_C3 [["a==1".data], ["b==2".data]] [["b==2".data], ["a==1".data]]
    (by decide)).2.2.1

/-- C4: after comment stripping, the version spec is exactly the text from
the first `= < > !` character up to (but not including) the next
whitespace or end of string (refinement against `specSide`, the
spec-worded extraction); it is empty when no such character exists, it
starts with such a character, contains no whitespace, is preceded only by
non-operator characters, and is followed by nothing or by whitespace; and
`"requests>=2.28,<3.0  # pinned"` parses to `requests` with
`>=2.28,<3.0`. -/
theorem claim_C4 :
    (∀ rest : Str, findVersionSpec rest = specSide rest)
    ∧ (∀ rest : Str, (∀ c ∈ rest, isOpChar c = false) →
        findVersionSpec rest = [])
    ∧ (∀ (rest : Str) (c : Char), c ∈ rest → isOpChar c = true →
        ∃ a b, rest = a ++ findVersionSpec rest ++ b
          ∧ (∀ x ∈ a, isOpChar x = false)
          ∧ findVersionSpec rest ≠ []
          ∧ (∀ x, (findVersionSpec rest).head? = some x →
              isOpChar x = true)
          ∧ (∀ x ∈ findVersionSpec rest, isSpaceChar x = false)
          ∧ (b = [] ∨ ∀ y, b.head? = some y → isSpaceChar y = true))
    ∧ parse_requirement "requests>=2.28,<3.0  # pinned".data
        = some ("requests".data, ">=2.28,<3.0".data) := by
  refine ⟨findVersionSpec_eq_specSide,
    fun rest hno => findVersionSpec_of_no_op hno, ?_, by decide⟩
  intro rest c hc hop
  obtain ⟨a, b, h1, h2, h3, h4⟩ := findVersionSpec_split rest hc hop
  exact ⟨a, b, h1, h2, h3,
    fun x hx => findVersionSpec_head_op rest hx,
    findVersionSpec_no_space rest, h4⟩

/-- C4 witness: the characterization evaluated at concrete inputs. -/
theorem claim_C4_witness :
    findVersionSpec "xy".data = []
    ∧ (∃ a b, "ab>=1 x".data = a ++ findVersionSpec "ab>=1 x".data ++ b
        ∧ (∀ x ∈ a, isOpChar x = false)
        ∧ findVersionSpec "ab>=1 x".data ≠ []
        ∧ (∀ x, (findVersionSpec "ab>=1 x".data).head? = some x →
            isOpChar x = true)
        ∧ (∀ x ∈ findVersionSpec "ab>=1 x".data, isSpaceChar x = false)
        ∧ (b = [] ∨ ∀ y, b.head? = some y → isSpaceChar y = true)) :=
  ⟨claim_C4.2.1 "xy".data (by decide),
   claim_C4.2.2.1 "ab>=1 x".data '>' (by decide) (by decide)⟩

/-- C5: two spellings that differ only in letter case and/or in the choice
of underscore versus hyphen parse to the same normalized name, so they
collapse to one aggregation identity; normalization is idempotent, and
`"Foo_Bar"` normalizes to `"foo-bar"`. -/
theorem claim_C5 :
    (∀ s t : Str, relatedStr s t = true →
      (∀ c ∈ s, isNameTail c = true) →
      (parse_requirement s).map Prod.fst
        = (parse_requirement t).map Prod.fst)
    ∧ (∀ x : Str, normName (normName x) = normName x)
    ∧ parse_requirement "Foo_Bar".data = some ("foo-bar".data, [])
    ∧ normName "Foo_Bar".data = "foo-bar".data :=
  ⟨fun _ _ h1 h2 => parse_name_of_related h1 h2, normName_idem,
   by decide, by decide⟩

/-- C5 witness: the related-spelling theorem at `Foo_Bar` / `foo-bar`. -/
theorem claim_C5_witness :
    (parse_requirement "Foo_Bar".data).map Prod.fst
      = (parse_requirement "foo-bar".data).map Prod.fst :=
  claim_C5.1 "Foo_Bar".data "foo-bar".data (by decide) (by decide)

/-- C6: both frequency reports list their rows sorted by strictly
descending file count with ties broken by ascending lexicographic key
(`relFreq`, the order used by `sortedByFreq`, which produces the rows of
`frequency_report_chunks` and `frequency_with_versions_chunks`); counts
`a:3, b:3, c:5` come out in the order `c, a, b`. -/
theorem claim_C6 :
    (∀ m : List (Str × Nat), List.Sorted relFreq (sortedByFreq m))
    ∧ (∀ (pkgs : List (Str × List Str)) (files : List (List Str)),
        (frequency_report_chunks pkgs files).drop 5
          = (sortedByFreq (package_counts files)).map (fun r =>
              padRight r.1 40 ++ " ".data ++ padRight (natStr r.2) 10
                ++ " ".data ++ versionsColumn ((getA pkgs r.1).getD [])
                ++ "\n".data))
    ∧ (∀ (pv : List (Str × Nat)) (files : List (List Str)),
        (frequency_with_versions_chunks pv files).drop 5
          = (sortedByFreq pv).map (fun r =>
              padRight r.1 60 ++ " ".data ++ padRight (natStr r.2) 10
                ++ "\n".data))
    ∧ (sortedByFreq [("a".data, 3), ("b".data, 3), ("c".data, 5)]).map
        Prod.fst = ["c".data, "a".data, "b".data] :=
  ⟨sortedByFreq_sorted, fun _ _ => rfl, fun _ _ => rfl, by decide⟩

/-- C7 counterexample: the unique-packages report for a one-package
aggregate is written with 3 separate write calls (two header writes and
one per package line), not one single complete write. -/
theorem claim_C7_counterexample :
    (unique_packages_chunks [("pkg".data, [])]).length = 3
    ∧ ¬ (unique_packages_chunks [("pkg".data, [])]).length = 1 := by
  exact ⟨by decide, by decide⟩

/-- C7 (amended): each report is built deterministically in memory, but is
written as a sequence of write calls (headers, then one write per line),
not as one atomic write; the file content after any number of completed
writes is a prefix of the final report text. -/
theorem claim_C7 :
    (∀ (packages : List (Str × List Str)) (k : Nat),
      ∃ t, chunksText ((unique_packages_chunks packages).take k) ++ t
        = chunksText (unique_packages_chunks packages))
    ∧ (∀ (packages : List (Str × List Str)) (files : List (List Str))
        (k : Nat),
      ∃ t, chunksText ((frequency_report_chunks packages files).take k) ++ t
        = chunksText (frequency_report_chunks packages files))
    ∧ (∀ (pv : List (Str × Nat)) (k : Nat),
      ∃ t, chunksText ((unique_with_versions_chunks pv).take k) ++ t
        = chunksText (unique_with_versions_chunks pv))
    ∧ (∀ (pv : List (Str × Nat)) (files : List (List Str)) (k : Nat),
      ∃ t, chunksText
          ((frequency_with_versions_chunks pv files).take k) ++ t
        = chunksText (frequency_with_versions_chunks pv files)) :=
  ⟨fun _ k => ⟨_, chunksText_take_append _ k⟩,
   fun _ _ k => ⟨_, chunksText_take_append _ k⟩,
   fun _ k => ⟨_, chunksText_take_append _ k⟩,
   fun _ _ k => ⟨_, chunksText_take_append _ k⟩⟩

/-- C8: when the scan found at least one manifest, a failing
summarization step (any failure in the taxonomy, e.g. the missing
credential diagnosed by `AIAnalyzer.__init__`) is caught: the run still
exits 0 with the four reports generated and the failure surfaced as a
warning. -/
theorem claim_C8 (files : List (List Str)) (hne : files ≠ [])
    (e : AIFailure) :
    (mainRun files (some (Except.error e))).exitCode = 0
    ∧ (mainRun files (some (Except.error e))).reports
        = some (allReports files)
    ∧ (mainRun files (some (Except.error e))).aiWarning = some e
    ∧ analyzerInit "anthropic".data none (fun _ => none)
        = Except.error AIFailure.missingCredential := by
  have hf : files.isEmpty = false := by
    cases files with
    | nil => exact absurd rfl hne
    | cons f fs => rfl
  have hmain : mainRun files (some (Except.error e))
      = ⟨0, some (allReports files), some e, none⟩ := by
    rw [mainRun, if_neg (by rw [hf]; simp)]
  rw [hmain]
  exact ⟨rfl, rfl, rfl, rfl⟩

/-- C8 witness: a concrete failing run. -/
theorem claim_C8_witness :
    (mainRun [["requests".data]]
      (some (Except.error AIFailure.remoteFailure))).exitCode = 0 :=
  (claim_C8 [["requests".data]] (by decide) AIFailure.remoteFailure).1

/-- C9: a successful parse yields a non-empty name that is entirely free
of uppercase letters and underscores and begins and ends with an
alphanumeric character, and a version spec that contains no whitespace
and, when non-empty, begins with one of `= < > !`.  (`parse_requirement`
is a total Lean function, so it returns on every input.) -/
theorem claim_C9 (line n v : Str)
    (h : parse_requirement line = some (n, v)) :
    n ≠ []
    ∧ (∀ x ∈ n, x.isUpper = false)
    ∧ '_' ∉ n
    ∧ (∀ x, n.head? = some x → x.isAlphanum = true)
    ∧ (∀ x, n.getLast? = some x → x.isAlphanum = true)
    ∧ (∀ x ∈ v, isSpaceChar x = false)
    ∧ (∀ x, v.head? = some x → isOpChar x = true) := by
  obtain ⟨name, rem, hm, hn, hv⟩ := parse_requirement_some h
  obtain ⟨hne, htail, hhead, hlast⟩ := matchName_facts hm
  subst hn
  subst hv
  refine ⟨?_, ?_, ?_, ?_, ?_, findVersionSpec_no_space rem,
    fun x hx => findVersionSpec_head_op rem hx⟩
  · intro hc
    apply hne
    rwa [normName, List.map_eq_nil_iff] at hc
  · intro x hx
    rw [normName] at hx
    obtain ⟨y, _, hyx⟩ := List.mem_map.mp hx
    rw [← hyx]
    exact normChar_not_upper y
  · intro hx
    rw [normName] at hx
    obtain ⟨y, _, hyx⟩ := List.mem_map.mp hx
    exact normChar_ne_underscore y hyx
  · intro x hx
    rw [normName, List.head?_map] at hx
    cases hh : name.head? with
    | none =>
      rw [hh, Option.map_none'] at hx
      exact Option.noConfusion hx
    | some y =>
      rw [hh, Option.map_some', Option.some.injEq] at hx
      rw [← hx]
      exact normChar_alnum (hhead y hh)
  · intro x hx
    rw [normName, List.getLast?_map] at hx
    cases hh : name.getLast? with
    | none =>
      rw [hh, Option.map_none'] at hx
      exact Option.noConfusion hx
    | some y =>
      rw [hh, Option.map_some', Option.some.injEq] at hx
      rw [← hx]
      exact normChar_alnum (hlast y hh)

/-- C9 witness: the invariants evaluated on a concrete parse. -/
theorem claim_C9_witness :
    '_' ∉ "foo-bar".data
    ∧ (∀ x ∈ ">=1.0".data, isSpaceChar x = false) :=
  ⟨(claim_C9 "Foo_Bar>=1.0".data "foo-bar".data ">=1.0".data
      (by decide)).2.2.1,
   (claim_C9 "Foo_Bar>=1.0".data "foo-bar".data ">=1.0".data
      (by decide)).2.2.2.2.2.1⟩

/-- C10: bracketed extras are dropped from the package identity:
`package[extra]>=1.0` parses to `package` / `>=1.0`, shares its full-spec
key and normalized name with `package>=1.0`, and the two lines deduplicate
against each other within one file. -/
theorem claim_C10 :
    parse_requirement "package[extra]>=1.0".data
      = some ("package".data, ">=1.0".data)
    ∧ fullSpecOf "package[extra]>=1.0".data
        = fullSpecOf "package>=1.0".data
    ∧ nameOf "package[extra]>=1.0".data = nameOf "package>=1.0".data
    ∧ package_versions [["package[extra]>=1.0".data, "package>=1.0".data]]
        = [("package>=1.0".data, 1)]
    ∧ package_counts [["package[extra]>=1.0".data, "package>=1.0".data]]
        = [("package".data, 1)] :=
  ⟨by decide, by decide, by decide, by decide, by decide⟩

end ReqScan
